import Mathlib

set_option maxRecDepth 8000

/-!
Shallow embedding of `src/monitor/dashboard_server.py`: run discovery over a
filesystem tree, the event-accumulator cache, and the JSON API handlers for
`/api/runs` and `/api/metrics`.  Timestamps (`st_mtime`, `wall_time`) and
scalar values are modelled as rationals; steps as integers; paths as strings.
-/

namespace Dashboard

/-- A filesystem entry: a plain file or a directory with children.
Both carry a modification time, as `Path.stat().st_mtime` works on either. -/
inductive FSEntry where
  | file (name : String) (mtime : ℚ)
  | dir (name : String) (mtime : ℚ) (entries : List FSEntry)

def entryName : FSEntry → String
  | .file n _ => n
  | .dir n _ _ => n

def entryMtime : FSEntry → ℚ
  | .file _ m => m
  | .dir _ m _ => m

/-- `pat` is a prefix of `s`, on character lists. -/
def startsWithList : List Char → List Char → Bool
  | [], _ => true
  | _ :: _, [] => false
  | a :: as, b :: bs => a = b && startsWithList as bs

/-- The glob pattern `events.out.tfevents.*` from `discover_runs`: a name
matches iff it starts with the literal `events.out.tfevents.` (glob `*`
matches any sequence of characters of a file name, including the empty one). -/
def isEventFileName (n : String) : Bool :=
  startsWithList "events.out.tfevents.".data n.data

/-- Python `max(files, key=mtime)`: fold keeping the first maximum
(a later element replaces the current one only when strictly greater). -/
def maxByMtime (cur : FSEntry) : List FSEntry → FSEntry
  | [] => cur
  | x :: xs => maxByMtime (if entryMtime cur < entryMtime x then x else cur) xs

/-- One element of the result of `discover_runs` (`@dataclass BehaviorEventFile`). -/
structure BehaviorEventFile where
  run_id : String
  behavior : String
  event_path : String
  updated_at : ℚ
deriving DecidableEq

/-- Lexicographic comparison of character lists by code point, the order
Python uses on strings. -/
def lexLe : List Char → List Char → Bool
  | [], _ => true
  | _ :: _, [] => false
  | a :: as, b :: bs => if a = b then lexLe as bs else decide (a.toNat < b.toNat)

/-- Python string `<=`. -/
def strLe (a b : String) : Bool := lexLe a.data b.data

/-- Stable insertion into a list sorted ascending by `key` under the boolean
comparator `leB`: a new element goes after all elements whose key compares
`leB`-below-or-equal to its own. -/
def insertSorted {α β : Type} (key : α → β) (leB : β → β → Bool) (x : α) :
    List α → List α
  | [] => [x]
  | y :: ys => if leB (key y) (key x) then y :: insertSorted key leB x ys
               else x :: y :: ys

/-- Stable ascending `sorted(l, key=key)` as in Python. -/
def sortByKey {α β : Type} (key : α → β) (leB : β → β → Bool) (l : List α) :
    List α :=
  l.foldl (fun acc x => insertSorted key leB x acc) []

/-- Model path join `run_dir / behavior_dir / file` (relative to the root). -/
def joinPath (r b f : String) : String := r ++ "/" ++ b ++ "/" ++ f

/-- The body of the inner loop of `discover_runs` for one candidate behavior
directory: skip non-directories; glob the event files; skip when none match;
otherwise report the file with the maximum modification time. -/
def behaviorRefs (rname : String) : FSEntry → List BehaviorEventFile
  | .file _ _ => []
  | .dir bname _ bents =>
    match bents.filter (fun be => isEventFileName (entryName be)) with
    | [] => []
    | f :: fs =>
      let latest := maxByMtime f fs
      [⟨rname, bname, joinPath rname bname (entryName latest), entryMtime latest⟩]

/-- The body of the outer loop of `discover_runs` for one candidate run
directory: skip non-directories, then scan each child as a behavior dir. -/
def runRefs : FSEntry → List BehaviorEventFile
  | .file _ _ => []
  | .dir rname _ rents => rents.flatMap (behaviorRefs rname)

/-- `discover_runs(results_dir)`.  The root is `none` when `results_dir` does
not exist (the function then returns the empty list); otherwise the
immediate entries of the root are traversed in sorted name order. -/
def discover_runs (root : Option (List FSEntry)) : List BehaviorEventFile :=
  match root with
  | none => []
  | some ents => (sortByKey entryName strLe ents).flatMap runRefs

/-! ## Scalar events and the parsed representation of one event file -/

/-- One scalar event `(step, value, wall_time)` as stored in an event file.
`float(ev.value)` in the source converts a numpy scalar to a Python float
without changing its numeric value; values are modelled as rationals, so the
conversion is value-preserving here as well. -/
structure ScalarEvent where
  step : ℤ
  value : ℚ
  wall_time : ℚ
deriving DecidableEq

/-- One element of a `data[tag]` array in the metrics response:
mapping step, float(value) and wall_time into the response object. -/
structure MetricPoint where
  step : ℤ
  value : ℚ
  wall_time : ℚ
deriving DecidableEq

def toPoint (e : ScalarEvent) : MetricPoint :=
  ⟨e.step, e.value, e.wall_time⟩

/-- The scalar content of a parsed event file: tag names mapped to their
ordered series of events (`acc.Tags()["scalars"]` / `acc.Scalars(tag)`). -/
abbrev TagMap := List (String × List ScalarEvent)

/-- Series lookup by tag (dictionary access; absent tags give the empty
series). -/
def getTag : TagMap → String → List ScalarEvent
  | [], _ => []
  | (k, l) :: rest, t => if k = t then l else getTag rest t

abbrev Path := String

/-- Modelled from the spec: the parser library (the `EventAccumulator`
of tensorboard) is an external dependency, out of scope and assumed to
"parse an append-only structured log file and return, per named scalar
series, an ordered sequence of (step, value, timestamp) samples";
`Reload` re-synchronizes the handle with the current file content,
incorporating appended samples without discarding earlier ones.  A handle
here carries an identity `hid` (Python object identity) and its scalar
content; constructing then `Reload`-ing, or `Reload`-ing in place, sets the
content to the current parsed content of the file. -/
structure EventAccumulator where
  hid : ℕ
  content : TagMap
deriving DecidableEq

/-- The current parsed content of every event file on disk. -/
abbrev FileSys := Path → TagMap

/-- The mutable state behind `EventCache`: the `_cache` dict (insertion
ordered), a source of fresh handle identities, and a counter of constructor
invocations (the "counting stub parser" of the spec). -/
structure CacheState where
  cache : List (Path × EventAccumulator)
  nextId : ℕ
  constructed : ℕ
deriving DecidableEq

def CacheState.empty : CacheState := ⟨[], 0, 0⟩

def lookupCache : List (Path × EventAccumulator) → Path → Option EventAccumulator
  | [], _ => none
  | (k, v) :: rest, p => if k = p then some v else lookupCache rest p

/-- Replace the value stored under an existing key, in place. -/
def updateCache : List (Path × EventAccumulator) → Path → EventAccumulator →
    List (Path × EventAccumulator)
  | [], _, _ => []
  | (k, v) :: rest, p, a => if k = p then (k, a) :: rest else (k, v) :: updateCache rest p a

def cacheKeys (st : CacheState) : List Path := st.cache.map Prod.fst

/-- The `RuntimeError` message raised when tensorboard is missing. -/
def depMissingMsg : String :=
  "tensorboard is not installed. Install it with `pip install tensorboard`."

/-- `EventCache.get(event_path)`.  `avail` models whether the
`tensorboard` import succeeded (`event_accumulator is not None`).  The whole
lookup-or-create-then-reload sequence runs under `self._lock`, so its
sequential semantics is the per-call semantics observed by every caller. -/
def EventCache.get (avail : Bool) (fs : FileSys) (p : Path) (st : CacheState) :
    Except String (EventAccumulator × CacheState) :=
  if avail = false then
    .error depMissingMsg
  else
    match lookupCache st.cache p with
    | none =>
      let acc : EventAccumulator := ⟨st.nextId, fs p⟩
      .ok (acc, ⟨st.cache ++ [(p, acc)], st.nextId + 1, st.constructed + 1⟩)
    | some acc =>
      let acc' : EventAccumulator := ⟨acc.hid, fs p⟩
      .ok (acc', ⟨updateCache st.cache p acc', st.nextId, st.constructed⟩)

/-! ## The metrics handler -/

/-- Result of Python `int(limit_raw)` on the query-string value: either the
parsed integer or a `ValueError`. -/
inductive PyIntParse where
  | ok (n : ℤ)
  | err
deriving DecidableEq

/-- The effective limit: `limit_raw = params.get("limit", [200])[0]` followed
by `limit = max(1, min(int(limit_raw), 2000))` with `except ValueError:
limit = 200`.  An absent parameter leaves the integer default `200`, which
`int` maps to itself. -/
def effectiveLimit : Option PyIntParse → ℤ
  | none => max 1 (min 200 2000)
  | some (.ok n) => max 1 (min n 2000)
  | some .err => 200

/-- Python `xs[-limit:]` for `limit ≥ 1`: the last `min limit (length xs)`
elements, in order. -/
def takeLast {α : Type} (n : ℕ) (xs : List α) : List α :=
  xs.drop (xs.length - n)

/-- Python truthiness test `not x` for an optional string: true for `None`
and for the empty string. -/
def pyFalsy : Option String → Bool
  | none => true
  | some s => s.isEmpty

def requiredMsg : String := "run and behavior are required"

/-- A single-quote character, written by code point, used to build the 404
message exactly as the Python f-string of `handle_metrics` interpolates it. -/
def sq : String := String.singleton (Char.ofNat 39)

def notFoundMsg (run_id behavior : String) : String :=
  "No event file found for run " ++ sq ++ run_id ++ sq ++
    " and behavior " ++ sq ++ behavior ++ sq

/-- The parsed query string of a `/api/metrics` request.  `parse_qs` drops
blank values, so each present parameter is a string (`limit` abstracted to
its `int(...)` parse result). -/
structure Request where
  run : Option String
  behavior : Option String
  limit : Option PyIntParse

inductive MetricsBody where
  | err (msg : String)
  | payload (run : String) (behavior : String) (event_path : String)
      (updated_at : ℚ) (tags : List String) (data : List (String × List MetricPoint))
deriving DecidableEq

structure MetricsResponse where
  status : ℕ
  body : MetricsBody
deriving DecidableEq

/-- `DashboardHandler._find_event_file`: first discovered ref matching both
fields under (case-sensitive) string equality. -/
def findEventFile (root : Option (List FSEntry)) (run_id behavior : String) :
    Option BehaviorEventFile :=
  (discover_runs root).find? (fun r => r.run_id == run_id && r.behavior == behavior)

/-- `DashboardHandler.handle_metrics`.  Returns the JSON response and the
cache state after the request. -/
def handle_metrics (avail : Bool) (root : Option (List FSEntry)) (fs : FileSys)
    (req : Request) (st : CacheState) : MetricsResponse × CacheState :=
  let limit := effectiveLimit req.limit
  if pyFalsy req.run || pyFalsy req.behavior then
    (⟨400, .err requiredMsg⟩, st)
  else
    let run_id := req.run.getD ""
    let behavior := req.behavior.getD ""
    match findEventFile root run_id behavior with
    | none => (⟨404, .err (notFoundMsg run_id behavior)⟩, st)
    | some ef =>
      match EventCache.get avail fs ef.event_path st with
      | .error msg => (⟨500, .err msg⟩, st)
      | .ok (acc, st') =>
        let tags := acc.content.map Prod.fst
        let data := tags.map fun t =>
          (t, (takeLast limit.toNat (getTag acc.content t)).map toPoint)
        (⟨200, .payload run_id behavior ef.event_path ef.updated_at tags data⟩, st')

/-! ## The runs handler -/

structure BehaviorInfo where
  name : String
  event_path : String
  updated_at : ℚ
deriving DecidableEq

structure RunSummary where
  id : String
  behaviors : List BehaviorInfo
  latest_update : ℚ
deriving DecidableEq

def behInfo (r : BehaviorEventFile) : BehaviorInfo :=
  ⟨r.behavior, r.event_path, r.updated_at⟩

/-- The loop body over an existing group list: find the group with this
run id, append the behavior entry, and raise `latest_update` to the max. -/
def updateGroup (r : BehaviorEventFile) : List RunSummary → List RunSummary
  | [] => []
  | g :: gs =>
    if g.id = r.run_id then
      { g with behaviors := g.behaviors ++ [behInfo r],
               latest_update := max g.latest_update r.updated_at } :: gs
    else g :: updateGroup r gs

/-- One iteration of the grouping loop in `handle_runs`: create the group on
first sight of a run id (dict insertion order), then update it. -/
def addRun (groups : List RunSummary) (r : BehaviorEventFile) : List RunSummary :=
  let groups' :=
    if groups.any (fun g => g.id == r.run_id) then groups
    else groups ++ [⟨r.run_id, [], r.updated_at⟩]
  updateGroup r groups'

def groupRuns (runs : List BehaviorEventFile) : List RunSummary :=
  runs.foldl addRun []

/-- `DashboardHandler.handle_runs`: group the discovery output by run id and
sort the summaries ascending by `latest_update` (the stable Python sort). -/
def handle_runs (root : Option (List FSEntry)) : List RunSummary :=
  sortByKey RunSummary.latest_update (fun x y => decide (x ≤ y))
    (groupRuns (discover_runs root))

/-! ## Fixtures used by witness theorems -/

def sampleEvents : List ScalarEvent := [⟨1, 10, 100⟩, ⟨2, 20, 200⟩, ⟨3, 30, 300⟩]

def fsSample : List FSEntry :=
  [.dir "run2" 0 [.dir "AgentB" 0
      [.file "events.out.tfevents.5" 5, .file "events.out.tfevents.9" 9,
       .file "other.txt" 99]],
   .dir "run1" 0 [.dir "AgentA" 0 [.file "events.out.tfevents.3" 3],
      .dir "nolog" 0 [.file "notes" 1], .file "config.yaml" 2],
   .file "stray" 7]

def fsFiles : FileSys := fun p =>
  if p = "run1/AgentA/events.out.tfevents.3" then [("reward", sampleEvents)] else []

/-! ## Cache lemmas -/

theorem lookupCache_eq_none {c : List (Path × EventAccumulator)} {p : Path} :
    lookupCache c p = none ↔ p ∉ c.map Prod.fst := by
  induction c with
  | nil => simp [lookupCache]
  | cons kv rest ih =>
    obtain ⟨k, v⟩ := kv
    by_cases hk : k = p <;> simp [lookupCache, hk, ih, Ne.symm]

theorem lookupCache_isSome {c : List (Path × EventAccumulator)} {p : Path} {a : EventAccumulator}
    (h : lookupCache c p = some a) : p ∈ c.map Prod.fst := by
  by_contra hmem
  rw [← lookupCache_eq_none] at hmem
  rw [hmem] at h
  exact Option.noConfusion h

theorem lookupCache_append_self {c : List (Path × EventAccumulator)} {p : Path}
    {a : EventAccumulator} (h : lookupCache c p = none) :
    lookupCache (c ++ [(p, a)]) p = some a := by
  induction c with
  | nil => simp [lookupCache]
  | cons kv rest ih =>
    obtain ⟨k, v⟩ := kv
    by_cases hk : k = p
    · simp [lookupCache, hk] at h
    · simp [lookupCache, hk] at h ⊢
      exact ih h

theorem updateCache_keys (c : List (Path × EventAccumulator)) (p : Path)
    (a : EventAccumulator) : (updateCache c p a).map Prod.fst = c.map Prod.fst := by
  induction c with
  | nil => rfl
  | cons kv rest ih =>
    obtain ⟨k, v⟩ := kv
    by_cases hk : k = p <;> simp [updateCache, hk, ih]

theorem lookupCache_updateCache_self {c : List (Path × EventAccumulator)} {p : Path}
    {a b : EventAccumulator} (h : lookupCache c p = some b) :
    lookupCache (updateCache c p a) p = some a := by
  induction c with
  | nil => simp [lookupCache] at h
  | cons kv rest ih =>
    obtain ⟨k, v⟩ := kv
    by_cases hk : k = p
    · simp [lookupCache, updateCache, hk]
    · simp [lookupCache, updateCache, hk] at h ⊢
      exact ih h

theorem get_of_lookup_none {fs : FileSys} {p : Path} {st : CacheState}
    (h : lookupCache st.cache p = none) :
    EventCache.get true fs p st =
      .ok (⟨st.nextId, fs p⟩,
           ⟨st.cache ++ [(p, ⟨st.nextId, fs p⟩)], st.nextId + 1, st.constructed + 1⟩) := by
  simp [EventCache.get, h]

theorem get_of_lookup_some {fs : FileSys} {p : Path} {st : CacheState} {a : EventAccumulator}
    (h : lookupCache st.cache p = some a) :
    EventCache.get true fs p st =
      .ok (⟨a.hid, fs p⟩,
           ⟨updateCache st.cache p ⟨a.hid, fs p⟩, st.nextId, st.constructed⟩) := by
  simp [EventCache.get, h]

theorem get_ok_content {fs : FileSys} {p : Path} {st : CacheState}
    {a : EventAccumulator} {st' : CacheState}
    (h : EventCache.get true fs p st = .ok (a, st')) : a.content = fs p := by
  cases hc : lookupCache st.cache p with
  | none => rw [get_of_lookup_none hc] at h; cases h; rfl
  | some b => rw [get_of_lookup_some hc] at h; cases h; rfl

/-! ## Claim theorems: request validation and error paths -/

/-- C2: for every value of the `limit` query parameter, the effective limit
is `clamp(int(limit_raw), 1, 2000)` when the value parses as an integer and
the default `200` when the parameter is absent or fails to parse; a
malformed limit changes nothing else about the response (in particular it
never yields an error response). -/
theorem effective_limit_spec :
    (∀ n : ℤ, effectiveLimit (some (.ok n)) = max 1 (min n 2000)) ∧
    effectiveLimit none = 200 ∧
    effectiveLimit (some .err) = 200 ∧
    (∀ (avail : Bool) (root : Option (List FSEntry)) (fs : FileSys)
       (run behavior : Option String) (st : CacheState),
      handle_metrics avail root fs ⟨run, behavior, some .err⟩ st =
        handle_metrics avail root fs ⟨run, behavior, none⟩ st) := by
  refine ⟨fun n => rfl, by decide, rfl, fun avail root fs run behavior st => ?_⟩
  simp [handle_metrics, effectiveLimit]

/-- C7: a metrics request missing the `run` or the `behavior` query
parameter is answered 400, the body being the error object with message
`requiredMsg`, whatever the other parameters and the server state. -/
theorem metrics_missing_params_400 (avail : Bool) (root : Option (List FSEntry))
    (fs : FileSys) (req : Request) (st : CacheState)
    (h : req.run = none ∨ req.behavior = none) :
    handle_metrics avail root fs req st = (⟨400, .err requiredMsg⟩, st) := by
  obtain ⟨run, behavior, lim⟩ := req
  rcases h with h | h <;> cases h <;> simp [handle_metrics, pyFalsy]

theorem metrics_missing_params_400_witness :
    (Request.mk none (some "AgentA") none).run = none ∧
    handle_metrics true (some fsSample) fsFiles ⟨none, some "AgentA", none⟩
        CacheState.empty = (⟨400, .err requiredMsg⟩, CacheState.empty) :=
  ⟨rfl, metrics_missing_params_400 true (some fsSample) fsFiles _ CacheState.empty
      (Or.inl rfl)⟩

/-- C6: when both `run` and `behavior` are present but no discovered ref
matches the pair under case-sensitive equality on both fields, the metrics
handler answers 404, the body being the error object whose message quotes
the requested run and behavior in the exact f-string format. -/
theorem metrics_not_found_404 (avail : Bool) (root : Option (List FSEntry))
    (fs : FileSys) (r b : String) (lim : Option PyIntParse) (st : CacheState)
    (hr : r.isEmpty = false) (hb : b.isEmpty = false)
    (hfind : findEventFile root r b = none) :
    handle_metrics avail root fs ⟨some r, some b, lim⟩ st =
      (⟨404, .err (notFoundMsg r b)⟩, st) := by
  simp [handle_metrics, pyFalsy, hr, hb, hfind]

theorem metrics_not_found_404_witness :
    ("missing" : String).isEmpty = false ∧ ("x" : String).isEmpty = false ∧
    findEventFile (some fsSample) "missing" "x" = none ∧
    handle_metrics true (some fsSample) fsFiles ⟨some "missing", some "x", none⟩
        CacheState.empty =
      (⟨404, .err (notFoundMsg "missing" "x")⟩, CacheState.empty) :=
  ⟨rfl, rfl, by decide,
   metrics_not_found_404 true (some fsSample) fsFiles "missing" "x" none
     CacheState.empty rfl rfl (by decide)⟩

/-- C8: when the tensorboard dependency is unavailable every
`EventCache.get` call fails with the dependency-missing message regardless
of the path, and a metrics request that resolves to a valid (run, behavior)
pair is answered 500 with that message as the error field. -/
theorem dependency_missing_500 :
    (∀ (fs : FileSys) (p : Path) (st : CacheState),
      EventCache.get false fs p st = .error depMissingMsg) ∧
    (∀ (root : Option (List FSEntry)) (fs : FileSys) (r b : String)
       (lim : Option PyIntParse) (st : CacheState) (ef : BehaviorEventFile),
      r.isEmpty = false → b.isEmpty = false →
      findEventFile root r b = some ef →
      handle_metrics false root fs ⟨some r, some b, lim⟩ st =
        (⟨500, .err depMissingMsg⟩, st)) := by
  refine ⟨fun fs p st => rfl, fun root fs r b lim st ef hr hb hfind => ?_⟩
  simp [handle_metrics, pyFalsy, hr, hb, hfind, EventCache.get]

theorem dependency_missing_500_witness :
    ("run1" : String).isEmpty = false ∧ ("AgentA" : String).isEmpty = false ∧
    findEventFile (some fsSample) "run1" "AgentA" =
      some ⟨"run1", "AgentA", "run1/AgentA/events.out.tfevents.3", 3⟩ ∧
    handle_metrics false (some fsSample) fsFiles ⟨some "run1", some "AgentA", none⟩
        CacheState.empty = (⟨500, .err depMissingMsg⟩, CacheState.empty) :=
  ⟨rfl, rfl, by decide,
   dependency_missing_500.2 (some fsSample) fsFiles "run1" "AgentA" none
     CacheState.empty ⟨"run1", "AgentA", "run1/AgentA/events.out.tfevents.3", 3⟩
     rfl rfl (by decide)⟩

/-- C10: a metrics request that ends in an error response (status other
than 200) leaves the path-to-handle mapping of the cache exactly as it was:
the 400 and 404 paths return before the cache is touched, and the
dependency check raises before any handle is constructed or stored. -/
theorem error_response_cache_unchanged (avail : Bool) (root : Option (List FSEntry))
    (fs : FileSys) (req : Request) (st : CacheState) (resp : MetricsResponse)
    (st' : CacheState) (h : handle_metrics avail root fs req st = (resp, st'))
    (herr : resp.status ≠ 200) : st' = st := by
  simp only [handle_metrics] at h
  split at h
  · cases h; rfl
  · split at h
    · cases h; rfl
    · split at h
      · cases h; rfl
      · cases h; exact absurd rfl herr

theorem error_response_cache_unchanged_witness :
    handle_metrics true (some fsSample) fsFiles ⟨some "missing", some "x", none⟩
        CacheState.empty =
      (⟨404, .err (notFoundMsg "missing" "x")⟩, CacheState.empty) ∧
    (404 : ℕ) ≠ 200 ∧
    CacheState.empty = CacheState.empty :=
  ⟨by decide, by decide,
   error_response_cache_unchanged true (some fsSample) fsFiles
     ⟨some "missing", some "x", none⟩ CacheState.empty
     ⟨404, .err (notFoundMsg "missing" "x")⟩ CacheState.empty (by decide) (by decide)⟩

/-! ## Claim theorems: reload semantics -/

/-- C9: for two consecutive `EventCache.get` calls on the same path, the
content of the second call extends that of the first, per series: equal when
the underlying file is unchanged, and a series-wise superset (every sample,
hence every step, of the first result is in the second) when samples were
appended in between; reload never discards previously read data. -/
theorem reload_idempotent_monotone (fs1 fs2 : FileSys) (p : Path) (st : CacheState)
    (a1 a2 : EventAccumulator) (st1 st2 : CacheState)
    (h1 : EventCache.get true fs1 p st = .ok (a1, st1))
    (h2 : EventCache.get true fs2 p st1 = .ok (a2, st2)) :
    (fs1 p = fs2 p → a2.content = a1.content) ∧
    ((∀ t, ∃ suf, getTag (fs2 p) t = getTag (fs1 p) t ++ suf) →
      ∀ t, ∀ s ∈ getTag a1.content t, s ∈ getTag a2.content t) := by
  have e1 : a1.content = fs1 p := get_ok_content h1
  have e2 : a2.content = fs2 p := get_ok_content h2
  constructor
  · intro hfs
    rw [e1, e2, hfs]
  · intro hext t s hs
    obtain ⟨suf, hsuf⟩ := hext t
    rw [e2, hsuf]
    rw [e1] at hs
    exact List.mem_append_left suf hs

def fs9a : FileSys := fun _ => [("reward", [⟨1, 10, 100⟩])]
def fs9b : FileSys := fun _ => [("reward", [⟨1, 10, 100⟩, ⟨2, 20, 200⟩])]

theorem reload_idempotent_monotone_witness :
    EventCache.get true fs9a "p" CacheState.empty =
      .ok (⟨0, [("reward", [⟨1, 10, 100⟩])]⟩,
           ⟨[("p", ⟨0, [("reward", [⟨1, 10, 100⟩])]⟩)], 1, 1⟩) ∧
    EventCache.get true fs9b "p" ⟨[("p", ⟨0, [("reward", [⟨1, 10, 100⟩])]⟩)], 1, 1⟩ =
      .ok (⟨0, [("reward", [⟨1, 10, 100⟩, ⟨2, 20, 200⟩])]⟩,
           ⟨[("p", ⟨0, [("reward", [⟨1, 10, 100⟩, ⟨2, 20, 200⟩])]⟩)], 1, 1⟩) ∧
    ((fs9a "p" = fs9b "p" →
        (⟨0, [("reward", [⟨1, 10, 100⟩, ⟨2, 20, 200⟩])]⟩ : EventAccumulator).content =
          (⟨0, [("reward", [⟨1, 10, 100⟩])]⟩ : EventAccumulator).content) ∧
      ((∀ t, ∃ suf, getTag (fs9b "p") t = getTag (fs9a "p") t ++ suf) →
        ∀ t, ∀ s ∈ getTag (⟨0, [("reward", [⟨1, 10, 100⟩])]⟩ :
            EventAccumulator).content t,
          s ∈ getTag (⟨0, [("reward", [⟨1, 10, 100⟩, ⟨2, 20, 200⟩])]⟩ :
            EventAccumulator).content t)) :=
  ⟨rfl, rfl,
   reload_idempotent_monotone fs9a fs9b "p" CacheState.empty
     ⟨0, [("reward", [⟨1, 10, 100⟩])]⟩
     ⟨0, [("reward", [⟨1, 10, 100⟩, ⟨2, 20, 200⟩])]⟩
     ⟨[("p", ⟨0, [("reward", [⟨1, 10, 100⟩])]⟩)], 1, 1⟩
     ⟨[("p", ⟨0, [("reward", [⟨1, 10, 100⟩, ⟨2, 20, 200⟩])]⟩)], 1, 1⟩
     rfl rfl⟩

/-! ## Claim theorems: the tail slice of the metrics response -/

theorem takeLast_length {α : Type} (n : ℕ) (xs : List α) :
    (takeLast n xs).length = min n xs.length := by
  simp [takeLast]
  omega

theorem takeLast_is_suffix {α : Type} (n : ℕ) (xs : List α) :
    xs = xs.take (xs.length - n) ++ takeLast n xs := by
  simp [takeLast]

theorem lookup_map_self {β : Type} (l : List String) (f : String → β) (t : String)
    (h : t ∈ l) : (l.map fun u => (u, f u)).lookup t = some (f t) := by
  induction l with
  | nil => cases h
  | cons a rest ih =>
    rcases List.mem_cons.mp h with rfl | h
    · simp [List.lookup]
    · by_cases ha : t = a
      · subst ha; simp [List.lookup]
      · have hba : (t == a) = false := beq_eq_false_iff_ne.mpr ha
        simp only [List.map_cons, List.lookup, hba]
        exact ih h

/-- C3: on a successful metrics request, for every scalar tag of the parsed
handle the returned sample array is exactly the last
`min limit (series length)` samples of that series in their original order
(a tail slice), each converted to a step, value, wall_time point by `toPoint`. -/
theorem metrics_tail_slice (root : Option (List FSEntry)) (fs : FileSys)
    (req : Request) (st : CacheState) (run behavior event_path : String)
    (updated_at : ℚ) (tags : List String)
    (data : List (String × List MetricPoint)) (st' : CacheState)
    (h : handle_metrics true root fs req st =
      (⟨200, .payload run behavior event_path updated_at tags data⟩, st')) :
    ∀ t ∈ tags,
      data.lookup t =
        some ((takeLast (effectiveLimit req.limit).toNat
                (getTag (fs event_path) t)).map toPoint) ∧
      (∃ pre, getTag (fs event_path) t =
          pre ++ takeLast (effectiveLimit req.limit).toNat (getTag (fs event_path) t)) ∧
      (takeLast (effectiveLimit req.limit).toNat (getTag (fs event_path) t)).length =
        min (effectiveLimit req.limit).toNat (getTag (fs event_path) t).length := by
  simp only [handle_metrics] at h
  split at h
  · cases h
  · cases hfind : findEventFile root (req.run.getD "") (req.behavior.getD "") with
    | none => rw [hfind] at h; cases h
    | some ef =>
      rw [hfind] at h
      simp only [] at h
      cases hget : EventCache.get true fs ef.event_path st with
      | error msg => rw [hget] at h; cases h
      | ok pr =>
        obtain ⟨acc, stc⟩ := pr
        rw [hget] at h
        simp only [] at h
        have hcontent : acc.content = fs ef.event_path := get_ok_content hget
        cases h
        intro t ht
        refine ⟨?_, ⟨_, takeLast_is_suffix _ _⟩, takeLast_length _ _⟩
        rw [← hcontent]
        exact lookup_map_self _ _ t ht

theorem metrics_tail_slice_witness :
    handle_metrics true (some fsSample) fsFiles
        ⟨some "run1", some "AgentA", some (.ok 2)⟩ CacheState.empty =
      (⟨200, .payload "run1" "AgentA" "run1/AgentA/events.out.tfevents.3" 3
          ["reward"]
          [("reward", [⟨2, 20, 200⟩, ⟨3, 30, 300⟩])]⟩,
       ⟨[("run1/AgentA/events.out.tfevents.3", ⟨0, [("reward", sampleEvents)]⟩)], 1, 1⟩) ∧
    ("reward" : String) ∈ ["reward"] ∧
    ([("reward", [(⟨2, 20, 200⟩ : MetricPoint), ⟨3, 30, 300⟩])].lookup "reward" =
        some ((takeLast (effectiveLimit (some (.ok 2))).toNat
          (getTag (fsFiles "run1/AgentA/events.out.tfevents.3") "reward")).map toPoint) ∧
      (∃ pre, getTag (fsFiles "run1/AgentA/events.out.tfevents.3") "reward" =
          pre ++ takeLast (effectiveLimit (some (.ok 2))).toNat
            (getTag (fsFiles "run1/AgentA/events.out.tfevents.3") "reward")) ∧
      (takeLast (effectiveLimit (some (.ok 2))).toNat
          (getTag (fsFiles "run1/AgentA/events.out.tfevents.3") "reward")).length =
        min (effectiveLimit (some (.ok 2))).toNat
          (getTag (fsFiles "run1/AgentA/events.out.tfevents.3") "reward").length) :=
  ⟨by decide, by decide,
   metrics_tail_slice (some fsSample) fsFiles
     ⟨some "run1", some "AgentA", some (.ok 2)⟩ CacheState.empty
     "run1" "AgentA" "run1/AgentA/events.out.tfevents.3" 3 ["reward"]
     [("reward", [⟨2, 20, 200⟩, ⟨3, 30, 300⟩])]
     ⟨[("run1/AgentA/events.out.tfevents.3", ⟨0, [("reward", sampleEvents)]⟩)], 1, 1⟩
     (by decide) "reward" (by decide)⟩

/-! ## Claim theorems: cache uniqueness under repeated gets -/

/-- A sequence of `EventCache.get` calls for one path (the file may change
between calls), returning the handles observed by each call and the final
state.  The lock serializes concurrent callers, so this sequential run is
the semantics of any interleaving of `get` calls for the path. -/
def getSeq (fss : List FileSys) (p : Path) (st : CacheState) :
    List EventAccumulator × CacheState :=
  match fss with
  | [] => ([], st)
  | fs :: rest =>
    match EventCache.get true fs p st with
    | .error _ => ([], st)
    | .ok (a, st1) =>
      let r := getSeq rest p st1
      (a :: r.1, r.2)

/-- C1: the cache holds at most one handle per distinct path.  Over any
sequence of `get` calls for a path: the key set gains `p` exactly once when
it was absent and is unchanged otherwise, keys stay duplicate-free, the
constructor runs exactly once when no handle was stored and never
otherwise, every observed handle is the same single one (the stored
identity of the stored handle, or the one constructed first), and after at
least one call a handle for `p` is stored. -/
theorem cache_at_most_one_handle (fss : List FileSys) (p : Path) (st : CacheState)
    (hnd : (cacheKeys st).Nodup) :
    cacheKeys (getSeq fss p st).2 =
      (if fss.isEmpty = true ∨ p ∈ cacheKeys st then cacheKeys st
       else cacheKeys st ++ [p]) ∧
    (cacheKeys (getSeq fss p st).2).Nodup ∧
    (getSeq fss p st).2.constructed =
      st.constructed + (if fss.isEmpty = true ∨ p ∈ cacheKeys st then 0 else 1) ∧
    (∀ a ∈ (getSeq fss p st).1,
      a.hid = (match lookupCache st.cache p with
               | some b => b.hid
               | none => st.nextId)) ∧
    (fss.isEmpty = false → p ∈ cacheKeys (getSeq fss p st).2) := by
  induction fss generalizing st with
  | nil =>
    refine ⟨by simp [getSeq], by simpa [getSeq] using hnd,
            by simp [getSeq], by simp [getSeq], by simp [getSeq, List.isEmpty]⟩
  | cons fs rest ih =>
    cases hc : lookupCache st.cache p with
    | none =>
      have hp : p ∉ cacheKeys st := lookupCache_eq_none.mp hc
      have hcond : ¬((fs :: rest).isEmpty = true ∨ p ∈ cacheKeys st) := by
        simp [List.isEmpty, hp]
      set acc : EventAccumulator := ⟨st.nextId, fs p⟩ with hacc
      set st1 : CacheState :=
        ⟨st.cache ++ [(p, acc)], st.nextId + 1, st.constructed + 1⟩ with hst1
      have hseq : getSeq (fs :: rest) p st =
          ((acc : EventAccumulator) :: (getSeq rest p st1).1, (getSeq rest p st1).2) := by
        simp only [getSeq, get_of_lookup_none hc]
      have hkeys1 : cacheKeys st1 = cacheKeys st ++ [p] := by
        simp [cacheKeys, hst1]
      have hnd1 : (cacheKeys st1).Nodup := by
        rw [hkeys1]
        simp only [List.nodup_append, List.nodup_singleton, true_and]
        exact ⟨hnd, by simpa using hp⟩
      have hpm1 : p ∈ cacheKeys st1 := by
        rw [hkeys1]; exact List.mem_append_right _ (List.mem_singleton_self p)
      have hlk1 : lookupCache st1.cache p = some acc := lookupCache_append_self hc
      obtain ⟨ihk, ihn, ihc, ihh, _⟩ := ih st1 hnd1
      have ihk' : cacheKeys (getSeq rest p st1).2 = cacheKeys st ++ [p] := by
        rw [ihk, if_pos (Or.inr hpm1), hkeys1]
      refine ⟨?_, ?_, ?_, ?_, ?_⟩
      · rw [hseq]; rw [if_neg hcond]; exact ihk'
      · rw [hseq]; exact ihn
      · rw [hseq, ihc, if_pos (Or.inr hpm1), if_neg hcond]
      · rw [hseq]
        intro a ha
        simp only [hc]
        rcases List.mem_cons.mp ha with rfl | ha
        · rfl
        · have := ihh a ha
          rw [hlk1] at this
          simpa [hst1, hacc] using this
      · intro _
        rw [hseq, ihk']
        exact List.mem_append_right _ (List.mem_singleton_self p)
    | some a =>
      have hp : p ∈ cacheKeys st := lookupCache_isSome hc
      have hcond : ((fs :: rest).isEmpty = true ∨ p ∈ cacheKeys st) := Or.inr hp
      set acc : EventAccumulator := ⟨a.hid, fs p⟩ with hacc
      set st1 : CacheState :=
        ⟨updateCache st.cache p acc, st.nextId, st.constructed⟩ with hst1
      have hseq : getSeq (fs :: rest) p st =
          ((acc : EventAccumulator) :: (getSeq rest p st1).1, (getSeq rest p st1).2) := by
        simp only [getSeq, get_of_lookup_some hc]
      have hkeys1 : cacheKeys st1 = cacheKeys st := by
        simp [cacheKeys, hst1, updateCache_keys]
      have hnd1 : (cacheKeys st1).Nodup := by rw [hkeys1]; exact hnd
      have hpm1 : p ∈ cacheKeys st1 := by rw [hkeys1]; exact hp
      have hlk1 : lookupCache st1.cache p = some acc := lookupCache_updateCache_self hc
      obtain ⟨ihk, ihn, ihc, ihh, _⟩ := ih st1 hnd1
      have ihk' : cacheKeys (getSeq rest p st1).2 = cacheKeys st := by
        rw [ihk, if_pos (Or.inr hpm1), hkeys1]
      refine ⟨?_, ?_, ?_, ?_, ?_⟩
      · rw [hseq, if_pos hcond]; exact ihk'
      · rw [hseq]; exact ihn
      · rw [hseq, ihc, if_pos (Or.inr hpm1), if_pos hcond]
      · rw [hseq]
        intro b hb
        simp only [hc]
        rcases List.mem_cons.mp hb with rfl | hb
        · rfl
        · have := ihh b hb
          rw [hlk1] at this
          simpa [hst1, hacc] using this
      · intro _
        rw [hseq, ihk']
        exact hp

theorem cache_at_most_one_handle_witness :
    (cacheKeys CacheState.empty).Nodup ∧
    (cacheKeys (getSeq [fs9a, fs9b] "p" CacheState.empty).2 =
        (if ([fs9a, fs9b].isEmpty = true ∨ "p" ∈ cacheKeys CacheState.empty)
         then cacheKeys CacheState.empty else cacheKeys CacheState.empty ++ ["p"]) ∧
      (cacheKeys (getSeq [fs9a, fs9b] "p" CacheState.empty).2).Nodup ∧
      (getSeq [fs9a, fs9b] "p" CacheState.empty).2.constructed =
        CacheState.empty.constructed +
          (if ([fs9a, fs9b].isEmpty = true ∨ "p" ∈ cacheKeys CacheState.empty)
           then 0 else 1) ∧
      (∀ a ∈ (getSeq [fs9a, fs9b] "p" CacheState.empty).1,
        a.hid = (match lookupCache CacheState.empty.cache "p" with
                 | some b => b.hid
                 | none => CacheState.empty.nextId)) ∧
      ([fs9a, fs9b].isEmpty = false →
        "p" ∈ cacheKeys (getSeq [fs9a, fs9b] "p" CacheState.empty).2)) :=
  ⟨List.nodup_nil,
   cache_at_most_one_handle [fs9a, fs9b] "p" CacheState.empty List.nodup_nil⟩

/-! ## Sorting lemmas -/

theorem insertSorted_perm {α β : Type} (key : α → β) (leB : β → β → Bool) (x : α)
    (l : List α) : (insertSorted key leB x l).Perm (x :: l) := by
  induction l with
  | nil => exact List.Perm.refl _
  | cons y ys ih =>
    by_cases h : leB (key y) (key x) = true
    · simp only [insertSorted, if_pos h]
      exact (ih.cons y).trans (List.Perm.swap x y ys)
    · simp only [insertSorted, if_neg h]
      exact List.Perm.refl _

theorem mem_insertSorted {α β : Type} (key : α → β) (leB : β → β → Bool) (x z : α)
    (l : List α) : z ∈ insertSorted key leB x l ↔ z = x ∨ z ∈ l := by
  rw [(insertSorted_perm key leB x l).mem_iff]
  simp

theorem foldl_insertSorted_perm {α β : Type} (key : α → β) (leB : β → β → Bool)
    (l acc : List α) :
    (l.foldl (fun acc x => insertSorted key leB x acc) acc).Perm (acc ++ l) := by
  induction l generalizing acc with
  | nil => simp
  | cons x xs ih =>
    have h1 := ih (insertSorted key leB x acc)
    have h2 : (insertSorted key leB x acc ++ xs).Perm ((x :: acc) ++ xs) :=
      (insertSorted_perm key leB x acc).append_right xs
    have h4 : (x :: (acc ++ xs)).Perm (acc ++ x :: xs) := List.perm_middle.symm
    exact (h1.trans h2).trans h4

theorem sortByKey_perm {α β : Type} (key : α → β) (leB : β → β → Bool) (l : List α) :
    (sortByKey key leB l).Perm l := by
  simpa using foldl_insertSorted_perm key leB l []

theorem insertSorted_pairwise {α β : Type} (key : α → β) (leB : β → β → Bool)
    (htot : ∀ u v, leB u v = true ∨ leB v u = true)
    (htrans : ∀ u v w, leB u v = true → leB v w = true → leB u w = true)
    (x : α) (l : List α) (hl : l.Pairwise (fun u v => leB (key u) (key v) = true)) :
    (insertSorted key leB x l).Pairwise (fun u v => leB (key u) (key v) = true) := by
  induction l with
  | nil => simp [insertSorted]
  | cons y ys ih =>
    rw [List.pairwise_cons] at hl
    obtain ⟨hy, hys⟩ := hl
    by_cases h : leB (key y) (key x) = true
    · simp only [insertSorted, if_pos h]
      rw [List.pairwise_cons]
      refine ⟨fun z hz => ?_, ih hys⟩
      rcases (mem_insertSorted key leB x z ys).mp hz with rfl | hz
      · exact h
      · exact hy z hz
    · simp only [insertSorted, if_neg h]
      rw [List.pairwise_cons]
      have hxy : leB (key x) (key y) = true := by
        rcases htot (key x) (key y) with hh | hh
        · exact hh
        · exact absurd hh h
      refine ⟨fun z hz => ?_, List.Pairwise.cons hy hys⟩
      rcases List.mem_cons.mp hz with rfl | hz
      · exact hxy
      · exact htrans _ _ _ hxy (hy z hz)

theorem sortByKey_pairwise {α β : Type} (key : α → β) (leB : β → β → Bool)
    (htot : ∀ u v, leB u v = true ∨ leB v u = true)
    (htrans : ∀ u v w, leB u v = true → leB v w = true → leB u w = true)
    (l : List α) :
    (sortByKey key leB l).Pairwise (fun u v => leB (key u) (key v) = true) := by
  have main : ∀ (l acc : List α),
      acc.Pairwise (fun u v => leB (key u) (key v) = true) →
      (l.foldl (fun acc x => insertSorted key leB x acc) acc).Pairwise
        (fun u v => leB (key u) (key v) = true) := by
    intro l
    induction l with
    | nil => intro acc h; exact h
    | cons x xs ih =>
      intro acc h
      exact ih _ (insertSorted_pairwise key leB htot htrans x acc h)
  exact main l [] List.Pairwise.nil

/-! ## The lexicographic string order -/

theorem lexLe_refl (l : List Char) : lexLe l l = true := by
  induction l with
  | nil => rfl
  | cons a as ih => simp [lexLe, ih]

theorem char_toNat_inj {a b : Char} (h : a.toNat = b.toNat) : a = b :=
  Char.ext (UInt32.ext h)

theorem lexLe_total (a b : List Char) : lexLe a b = true ∨ lexLe b a = true := by
  induction a generalizing b with
  | nil => left; rfl
  | cons x xs ih =>
    cases b with
    | nil => right; rfl
    | cons y ys =>
      by_cases hxy : x = y
      · subst hxy
        simpa [lexLe] using ih ys
      · have hv : x.toNat ≠ y.toNat := fun hv => hxy (char_toNat_inj hv)
        rcases lt_or_gt_of_ne hv with hlt | hgt
        · left; simp [lexLe, hxy, hlt]
        · right; simp [lexLe, Ne.symm hxy, hgt]

theorem lexLe_trans (a b c : List Char) (hab : lexLe a b = true)
    (hbc : lexLe b c = true) : lexLe a c = true := by
  induction a generalizing b c with
  | nil => rfl
  | cons x xs ih =>
    cases b with
    | nil => simp [lexLe] at hab
    | cons y ys =>
      cases c with
      | nil => simp [lexLe] at hbc
      | cons z zs =>
        by_cases hxy : x = y
        · subst hxy
          simp only [lexLe, if_pos rfl] at hab
          by_cases hyz : x = z
          · subst hyz
            simp only [lexLe, if_pos rfl] at hbc ⊢
            exact ih ys zs hab hbc
          · simp only [lexLe, if_neg hyz] at hbc ⊢
            exact hbc
        · simp only [lexLe, if_neg hxy, decide_eq_true_eq] at hab
          by_cases hyz : y = z
          · subst hyz
            simp [lexLe, hxy, hab]
          · simp only [lexLe, if_neg hyz, decide_eq_true_eq] at hbc
            have hxz : x.toNat < z.toNat := lt_trans hab hbc
            have : x ≠ z := fun he => by rw [he] at hxz; exact lt_irrefl _ hxz
            simp [lexLe, this, hxz]

theorem strLe_total (a b : String) : strLe a b = true ∨ strLe b a = true :=
  lexLe_total a.data b.data

theorem strLe_trans (a b c : String) (hab : strLe a b = true)
    (hbc : strLe b c = true) : strLe a c = true :=
  lexLe_trans a.data b.data c.data hab hbc

/-! ## Discovery lemmas -/

/-- The match predicate of `_find_event_file` / per-pair filtering:
case-sensitive equality on both fields. -/
def pRB (r b : String) (x : BehaviorEventFile) : Bool :=
  x.run_id == r && x.behavior == b

theorem mem_behaviorRefs {rname : String} {e : FSEntry} {x : BehaviorEventFile}
    (hx : x ∈ behaviorRefs rname e) : x.run_id = rname ∧ x.behavior = entryName e := by
  cases e with
  | file n m => simp [behaviorRefs] at hx
  | dir bname bm bents =>
    cases hf : bents.filter (fun be => isEventFileName (entryName be)) with
    | nil => simp [behaviorRefs, hf] at hx
    | cons f fs =>
      simp only [behaviorRefs, hf, List.mem_singleton] at hx
      subst hx
      exact ⟨rfl, rfl⟩

theorem mem_runRefs {e : FSEntry} {x : BehaviorEventFile}
    (hx : x ∈ runRefs e) : x.run_id = entryName e := by
  cases e with
  | file n m => simp [runRefs] at hx
  | dir rname rm rents =>
    obtain ⟨be, _, hxbe⟩ := List.mem_flatMap.mp hx
    exact (mem_behaviorRefs hxbe).1

theorem behaviorRefs_filter_self {r b : String} {bm : ℚ} {bents : List FSEntry} :
    (behaviorRefs r (.dir b bm bents)).filter (pRB r b) =
      behaviorRefs r (.dir b bm bents) := by
  apply List.filter_eq_self.mpr
  intro x hx
  obtain ⟨h1, h2⟩ := mem_behaviorRefs hx
  simp [pRB, h1, h2, entryName]

theorem behaviorRefs_filter_ne {r b : String} {e : FSEntry}
    (hne : entryName e ≠ b) : (behaviorRefs r e).filter (pRB r b) = [] := by
  apply List.filter_eq_nil_iff.mpr
  intro x hx
  have h2 := (mem_behaviorRefs hx).2
  simp [pRB, h2, hne]

theorem runRefs_filter_ne {r b : String} {e : FSEntry}
    (hne : entryName e ≠ r) : (runRefs e).filter (pRB r b) = [] := by
  apply List.filter_eq_nil_iff.mpr
  intro x hx
  have h1 := mem_runRefs hx
  simp [pRB, h1, hne]

theorem flatMap_behaviorRefs_filter {r b : String} {bm : ℚ} {bents : List FSEntry}
    (bl : List FSEntry) (hnd : (bl.map entryName).Nodup)
    (hmem : FSEntry.dir b bm bents ∈ bl) :
    (bl.flatMap (behaviorRefs r)).filter (pRB r b) =
      behaviorRefs r (.dir b bm bents) := by
  induction bl with
  | nil => cases hmem
  | cons e rest ih =>
    rw [List.map_cons, List.nodup_cons] at hnd
    obtain ⟨hnotin, hndr⟩ := hnd
    rw [List.flatMap_cons, List.filter_append]
    rcases List.mem_cons.mp hmem with rfl | hmem'
    · rw [behaviorRefs_filter_self]
      have hrest : (rest.flatMap (behaviorRefs r)).filter (pRB r b) = [] := by
        apply List.filter_eq_nil_iff.mpr
        intro x hx
        obtain ⟨be, hbe, hxbe⟩ := List.mem_flatMap.mp hx
        have hne : entryName be ≠ b := by
          intro he
          have hm : entryName be ∈ rest.map entryName :=
            List.mem_map_of_mem entryName hbe
          rw [he] at hm
          exact hnotin hm
        have h2 := (mem_behaviorRefs hxbe).2
        simp [pRB, h2, hne]
      rw [hrest, List.append_nil]
    · have hne : entryName e ≠ b := by
        intro he
        apply hnotin
        rw [he]
        exact List.mem_map_of_mem entryName hmem'
      rw [behaviorRefs_filter_ne hne, List.nil_append]
      exact ih hndr hmem'

theorem flatMap_runRefs_filter {r b : String} {m : ℚ} {rents : List FSEntry}
    (l : List FSEntry) (hnd : (l.map entryName).Nodup)
    (hmem : FSEntry.dir r m rents ∈ l) :
    (l.flatMap runRefs).filter (pRB r b) =
      (runRefs (.dir r m rents)).filter (pRB r b) := by
  induction l with
  | nil => cases hmem
  | cons e rest ih =>
    rw [List.map_cons, List.nodup_cons] at hnd
    obtain ⟨hnotin, hndr⟩ := hnd
    rw [List.flatMap_cons, List.filter_append]
    rcases List.mem_cons.mp hmem with rfl | hmem'
    · have hrest : (rest.flatMap runRefs).filter (pRB r b) = [] := by
        apply List.filter_eq_nil_iff.mpr
        intro x hx
        obtain ⟨d, hd, hxd⟩ := List.mem_flatMap.mp hx
        have hne : entryName d ≠ r := by
          intro he
          have hm : entryName d ∈ rest.map entryName :=
            List.mem_map_of_mem entryName hd
          rw [he] at hm
          exact hnotin hm
        have h1 := mem_runRefs hxd
        simp [pRB, h1, hne]
      rw [hrest, List.append_nil]
    · have hne : entryName e ≠ r := by
        intro he
        apply hnotin
        rw [he]
        exact List.mem_map_of_mem entryName hmem'
      rw [runRefs_filter_ne hne, List.nil_append]
      exact ih hndr hmem'

theorem pairwise_flatMap_runRefs (l : List FSEntry)
    (h : l.Pairwise (fun d e => strLe (entryName d) (entryName e) = true)) :
    (l.flatMap runRefs).Pairwise (fun x y => strLe x.run_id y.run_id = true) := by
  induction l with
  | nil => simp
  | cons e rest ih =>
    rw [List.pairwise_cons] at h
    obtain ⟨he, hrest⟩ := h
    rw [List.flatMap_cons]
    rw [List.pairwise_append]
    refine ⟨?_, ih hrest, ?_⟩
    · apply List.pairwise_of_forall_mem_list
      intro x hx y hy
      rw [mem_runRefs hx, mem_runRefs hy]
      exact lexLe_refl _
    · intro x hx y hy
      obtain ⟨d, hd, hyd⟩ := List.mem_flatMap.mp hy
      rw [mem_runRefs hx, mem_runRefs hyd]
      exact he d hd

/-- C4: run discovery returns the empty sequence when the root does not
exist; it enumerates run directories in (lexicographic) name order; for a
well-formed tree (distinct entry names per directory) a behavior directory
with no file matching `events.out.tfevents.*` contributes no entry for its
(run, behavior) pair, and one with matching files contributes exactly one:
the matching file with the maximum modification time (first maximum under
listing order). -/
theorem discover_runs_spec :
    discover_runs none = [] ∧
    (∀ ents : List FSEntry,
      (discover_runs (some ents)).Pairwise
        (fun x y => strLe x.run_id y.run_id = true)) ∧
    (∀ ents : List FSEntry, (ents.map entryName).Nodup →
     ∀ r m rents, FSEntry.dir r m rents ∈ ents → (rents.map entryName).Nodup →
     ∀ b bm bents, FSEntry.dir b bm bents ∈ rents →
      ((bents.filter (fun be => isEventFileName (entryName be)) = [] →
         (discover_runs (some ents)).filter (pRB r b) = []) ∧
       (∀ f fs, bents.filter (fun be => isEventFileName (entryName be)) = f :: fs →
         (discover_runs (some ents)).filter (pRB r b) =
           [⟨r, b, joinPath r b (entryName (maxByMtime f fs)),
             entryMtime (maxByMtime f fs)⟩]))) := by
  refine ⟨rfl, ?_, ?_⟩
  · intro ents
    exact pairwise_flatMap_runRefs _
      (sortByKey_pairwise entryName strLe strLe_total strLe_trans ents)
  · intro ents hnd r m rents hrmem hndr b bm bents hbmem
    have hperm := sortByKey_perm entryName strLe ents
    have hnds : ((sortByKey entryName strLe ents).map entryName).Nodup :=
      ((hperm.map entryName).nodup_iff).mpr hnd
    have hmem_s : FSEntry.dir r m rents ∈ sortByKey entryName strLe ents :=
      hperm.mem_iff.mpr hrmem
    have hmain : (discover_runs (some ents)).filter (pRB r b) =
        behaviorRefs r (.dir b bm bents) := by
      show ((sortByKey entryName strLe ents).flatMap runRefs).filter (pRB r b) = _
      rw [flatMap_runRefs_filter _ hnds hmem_s]
      show (rents.flatMap (behaviorRefs r)).filter (pRB r b) = _
      exact flatMap_behaviorRefs_filter rents hndr hbmem
    constructor
    · intro hf
      rw [hmain]
      simp [behaviorRefs, hf]
    · intro f fs hf
      rw [hmain]
      simp [behaviorRefs, hf]

theorem discover_runs_spec_witness :
    (fsSample.map entryName).Nodup ∧
    FSEntry.dir "run1" 0 [.dir "AgentA" 0 [.file "events.out.tfevents.3" 3],
        .dir "nolog" 0 [.file "notes" 1], .file "config.yaml" 2] ∈ fsSample ∧
    ([FSEntry.dir "AgentA" 0 [.file "events.out.tfevents.3" 3],
      FSEntry.dir "nolog" 0 [.file "notes" 1],
      FSEntry.file "config.yaml" 2].map entryName).Nodup ∧
    FSEntry.dir "AgentA" 0 [.file "events.out.tfevents.3" 3] ∈
      [FSEntry.dir "AgentA" 0 [.file "events.out.tfevents.3" 3],
       FSEntry.dir "nolog" 0 [.file "notes" 1],
       FSEntry.file "config.yaml" 2] ∧
    ([FSEntry.file "events.out.tfevents.3" (3 : ℚ)].filter
        (fun be => isEventFileName (entryName be)) =
      [FSEntry.file "events.out.tfevents.3" 3]) ∧
    (discover_runs (some fsSample)).filter (pRB "run1" "AgentA") =
      [⟨"run1", "AgentA",
        joinPath "run1" "AgentA"
          (entryName (maxByMtime (FSEntry.file "events.out.tfevents.3" 3) [])),
        entryMtime (maxByMtime (FSEntry.file "events.out.tfevents.3" 3) [])⟩] := by
  refine ⟨by decide, List.mem_cons_of_mem _ (List.mem_cons_self _ _),
          by decide, List.mem_cons_self _ _, rfl, ?_⟩
  exact ((discover_runs_spec.2.2 fsSample (by decide) "run1" 0
      [.dir "AgentA" 0 [.file "events.out.tfevents.3" 3],
       .dir "nolog" 0 [.file "notes" 1], .file "config.yaml" 2]
      (List.mem_cons_of_mem _ (List.mem_cons_self _ _)) (by decide)
      "AgentA" 0 [.file "events.out.tfevents.3" 3]
      (List.mem_cons_self _ _)).2
    (FSEntry.file "events.out.tfevents.3" 3) [] rfl)

/-! ## Grouping lemmas for the runs listing -/

/-- Fold of `max` over a list, starting from `x`: the running
`latest_update` of a group. -/
def maxQ (x : ℚ) (l : List ℚ) : ℚ := l.foldl max x

theorem maxQ_append_single (x : ℚ) (l : List ℚ) (y : ℚ) :
    maxQ x (l ++ [y]) = max (maxQ x l) y := by
  simp [maxQ]

theorem maxQ_mem (x : ℚ) (l : List ℚ) : maxQ x l = x ∨ maxQ x l ∈ l := by
  induction l generalizing x with
  | nil => left; rfl
  | cons y ys ih =>
    rcases ih (max x y) with h | h
    · rcases max_choice x y with hm | hm
      · left; rw [show maxQ x (y :: ys) = maxQ (max x y) ys from rfl, h, hm]
      · right
        rw [show maxQ x (y :: ys) = maxQ (max x y) ys from rfl, h, hm]
        exact List.mem_cons_self _ _
    · right
      exact List.mem_cons_of_mem _ h

theorem le_maxQ_self (x : ℚ) (l : List ℚ) : x ≤ maxQ x l := by
  induction l generalizing x with
  | nil => exact le_refl x
  | cons y ys ih => exact le_trans (le_max_left x y) (ih (max x y))

theorem le_maxQ_mem (x : ℚ) (l : List ℚ) : ∀ y ∈ l, y ≤ maxQ x l := by
  induction l generalizing x with
  | nil => intro y hy; cases hy
  | cons z zs ih =>
    intro y hy
    rcases List.mem_cons.mp hy with rfl | hy
    · exact le_trans (le_max_right x y) (le_maxQ_self (max x y) zs)
    · exact ih (max x z) y hy

/-- What one group built by the loop of `handle_runs` must look like relative to
the processed prefix `pre` of the discovery output. -/
def GP (pre : List BehaviorEventFile) (g : RunSummary) : Prop :=
  g.behaviors = (pre.filter (fun r => r.run_id == g.id)).map behInfo ∧
  ∃ r0 rs, pre.filter (fun r => r.run_id == g.id) = r0 :: rs ∧
    g.latest_update = maxQ r0.updated_at (rs.map BehaviorEventFile.updated_at)

theorem updateGroup_map_id (r : BehaviorEventFile) (gs : List RunSummary) :
    (updateGroup r gs).map RunSummary.id = gs.map RunSummary.id := by
  induction gs with
  | nil => rfl
  | cons g rest ih =>
    by_cases h : g.id = r.run_id <;> simp [updateGroup, h, ih]

theorem updateGroup_append_single (r : BehaviorEventFile) (gs : List RunSummary)
    (g0 : RunSummary) (h : ∀ g ∈ gs, g.id ≠ r.run_id) (hg0 : g0.id = r.run_id) :
    updateGroup r (gs ++ [g0]) =
      gs ++ [{ g0 with
               behaviors := g0.behaviors ++ [behInfo r],
               latest_update := max g0.latest_update r.updated_at }] := by
  induction gs with
  | nil => simp [updateGroup, hg0]
  | cons g rest ih =>
    have hg : g.id ≠ r.run_id := h g (List.mem_cons_self _ _)
    simp only [List.cons_append, updateGroup, if_neg hg]
    exact congrArg (List.cons g) (ih (fun g hgm => h g (List.mem_cons_of_mem _ hgm)))

theorem updateGroup_spec (r : BehaviorEventFile) (gs : List RunSummary)
    (hnd : (gs.map RunSummary.id).Nodup) (g' : RunSummary)
    (hg' : g' ∈ updateGroup r gs) :
    (g' ∈ gs ∧ g'.id ≠ r.run_id) ∨
    (∃ g ∈ gs, g.id = r.run_id ∧
      g' = { g with
             behaviors := g.behaviors ++ [behInfo r],
             latest_update := max g.latest_update r.updated_at }) := by
  induction gs with
  | nil => cases hg'
  | cons g rest ih =>
    rw [List.map_cons, List.nodup_cons] at hnd
    obtain ⟨hgnot, hndr⟩ := hnd
    by_cases hid : g.id = r.run_id
    · rw [updateGroup, if_pos hid] at hg'
      rcases List.mem_cons.mp hg' with rfl | hg'
      · exact Or.inr ⟨g, List.mem_cons_self _ _, hid, rfl⟩
      · left
        refine ⟨List.mem_cons_of_mem _ hg', ?_⟩
        intro he
        apply hgnot
        rw [hid, ← he]
        exact List.mem_map_of_mem RunSummary.id hg'
    · rw [updateGroup, if_neg hid] at hg'
      rcases List.mem_cons.mp hg' with rfl | hg'
      · exact Or.inl ⟨List.mem_cons_self _ _, hid⟩
      · rcases ih hndr hg' with ⟨hmem, hne⟩ | ⟨g1, hmem, he, heq⟩
        · exact Or.inl ⟨List.mem_cons_of_mem _ hmem, hne⟩
        · exact Or.inr ⟨g1, List.mem_cons_of_mem _ hmem, he, heq⟩

/-- GP is preserved when the new element belongs to a different group. -/
theorem GP_extend_ne (pre : List BehaviorEventFile) (r : BehaviorEventFile)
    (g : RunSummary) (hgp : GP pre g) (hne : g.id ≠ r.run_id) :
    GP (pre ++ [r]) g := by
  obtain ⟨hbeh, r0, rs, hfil, hlat⟩ := hgp
  have hfil' : (pre ++ [r]).filter (fun x => x.run_id == g.id) =
      pre.filter (fun x => x.run_id == g.id) := by
    rw [List.filter_append]
    have : (r.run_id == g.id) = false := by
      simp only [beq_eq_false_iff_ne]
      exact fun he => hne he.symm
    simp [this]
  exact ⟨by rw [hfil', ← hbeh], r0, rs, by rw [hfil', hfil], hlat⟩

theorem groupRuns_inv (runs : List BehaviorEventFile) :
    ((groupRuns runs).map RunSummary.id).Nodup ∧
    (∀ i, i ∈ (groupRuns runs).map RunSummary.id ↔
          i ∈ runs.map BehaviorEventFile.run_id) ∧
    (∀ g ∈ groupRuns runs, GP runs g) := by
  induction runs using List.reverseRecOn with
  | nil => exact ⟨List.nodup_nil, by simp [groupRuns], by simp [groupRuns]⟩
  | append_singleton pre r ih =>
    obtain ⟨ihnd, ihiff, ihgp⟩ := ih
    have hstep : groupRuns (pre ++ [r]) = addRun (groupRuns pre) r := by
      simp [groupRuns, List.foldl_append]
    by_cases hany : (groupRuns pre).any (fun g => g.id == r.run_id) = true
    · -- the run id already has a group: update it in place
      have hadd : groupRuns (pre ++ [r]) = updateGroup r (groupRuns pre) := by
        rw [hstep]; simp [addRun, hany]
      have hin : r.run_id ∈ (groupRuns pre).map RunSummary.id := by
        obtain ⟨g, hg, he⟩ := List.any_eq_true.mp hany
        rw [beq_iff_eq] at he
        rw [← he]
        exact List.mem_map_of_mem RunSummary.id hg
      refine ⟨?_, ?_, ?_⟩
      · rw [hadd, updateGroup_map_id]; exact ihnd
      · intro i
        rw [hadd, updateGroup_map_id, List.map_append, List.mem_append]
        constructor
        · intro h; exact Or.inl ((ihiff i).mp h)
        · intro h
          rcases h with h | h
          · exact (ihiff i).mpr h
          · rw [List.map_cons, List.map_nil, List.mem_singleton] at h
            rw [h]; exact hin
      · intro g' hg'
        rw [hadd] at hg'
        rcases updateGroup_spec r (groupRuns pre) ihnd g' hg' with
          ⟨hmem, hne⟩ | ⟨g, hmem, hid, heq⟩
        · exact GP_extend_ne pre r g' (ihgp g' hmem) hne
        · obtain ⟨hbeh, r0, rs, hfil, hlat⟩ := ihgp g hmem
          have hfil' : (pre ++ [r]).filter (fun x => x.run_id == g.id) =
              pre.filter (fun x => x.run_id == g.id) ++ [r] := by
            rw [List.filter_append]
            simp [hid]
          subst heq
          refine ⟨?_, r0, rs ++ [r], ?_, ?_⟩
          · show g.behaviors ++ [behInfo r] =
              ((pre ++ [r]).filter (fun x => x.run_id == g.id)).map behInfo
            rw [hfil', hbeh]
            simp
          · show (pre ++ [r]).filter (fun x => x.run_id == g.id) = r0 :: (rs ++ [r])
            rw [hfil', hfil, List.cons_append]
          · show max g.latest_update r.updated_at =
              maxQ r0.updated_at ((rs ++ [r]).map BehaviorEventFile.updated_at)
            rw [hlat, List.map_append, List.map_cons, List.map_nil,
              maxQ_append_single]
    · -- first occurrence of the run id: a fresh group is appended
      have hnotin : r.run_id ∉ (groupRuns pre).map RunSummary.id := by
        intro h
        obtain ⟨g, hg, he⟩ := List.mem_map.mp h
        apply absurd hany
        simp only [List.any_eq_true, not_not]
        exact ⟨g, hg, by rw [beq_iff_eq, he]⟩
      have hne : ∀ g ∈ groupRuns pre, g.id ≠ r.run_id := by
        intro g hg he
        exact hnotin (he ▸ List.mem_map_of_mem RunSummary.id hg)
      have hadd : groupRuns (pre ++ [r]) =
          groupRuns pre ++ [{ id := r.run_id,
                              behaviors := [behInfo r],
                              latest_update := max r.updated_at r.updated_at }] := by
        have hif : ((groupRuns pre).any fun g => g.id == r.run_id) = false := by
          simpa using hany
        rw [hstep]
        have hun : addRun (groupRuns pre) r =
            updateGroup r (groupRuns pre ++ [⟨r.run_id, [], r.updated_at⟩]) := by
          simp [addRun, hif]
        rw [hun]
        exact updateGroup_append_single r (groupRuns pre)
          ⟨r.run_id, [], r.updated_at⟩ hne rfl
      have hprefil : pre.filter (fun x => x.run_id == r.run_id) = [] := by
        apply List.filter_eq_nil_iff.mpr
        intro x hx
        simp only [beq_eq_false_iff_ne, ne_eq, Bool.not_eq_true]
        intro he
        apply hnotin
        rw [← he]
        exact (ihiff x.run_id).mpr (List.mem_map_of_mem BehaviorEventFile.run_id hx)
      refine ⟨?_, ?_, ?_⟩
      · rw [hadd, List.map_append]
        simp only [List.map_cons, List.map_nil]
        rw [List.nodup_append]
        exact ⟨ihnd, List.nodup_singleton _, by simpa using hnotin⟩
      · intro i
        rw [hadd, List.map_append, List.mem_append, List.map_append,
          List.mem_append]
        simp only [List.map_cons, List.map_nil, List.mem_singleton]
        constructor
        · intro h
          rcases h with h | h
          · exact Or.inl ((ihiff i).mp h)
          · exact Or.inr h
        · intro h
          rcases h with h | h
          · exact Or.inl ((ihiff i).mpr h)
          · exact Or.inr h
      · intro g' hg'
        rw [hadd] at hg'
        rcases List.mem_append.mp hg' with hmem | hmem
        · exact GP_extend_ne pre r g' (ihgp g' hmem)
            (hne g' hmem)
        · rw [List.mem_singleton] at hmem
          subst hmem
          have hfil' : (pre ++ [r]).filter (fun x => x.run_id == r.run_id) = [r] := by
            rw [List.filter_append, hprefil]
            simp
          exact ⟨by rw [hfil']; rfl, r, [], by rw [hfil'], by simp [maxQ]⟩

/-- C5: the runs listing groups discovery output by run id — one summary
per distinct run id, whose behaviors are exactly the discovered
(behavior, path, mtime) triples of that run in order, and whose
`latest_update` is the maximum modification time over those behaviors — and the summaries come out
sorted ascending by `latest_update`. -/
theorem runs_listing_spec (root : Option (List FSEntry)) :
    (handle_runs root).Perm (groupRuns (discover_runs root)) ∧
    (handle_runs root).Pairwise
      (fun g h => g.latest_update ≤ h.latest_update) ∧
    ((handle_runs root).map RunSummary.id).Nodup ∧
    (∀ i, i ∈ (handle_runs root).map RunSummary.id ↔
          i ∈ (discover_runs root).map BehaviorEventFile.run_id) ∧
    (∀ g ∈ handle_runs root,
      g.behaviors =
        ((discover_runs root).filter (fun r => r.run_id == g.id)).map behInfo ∧
      (∃ b ∈ g.behaviors, g.latest_update = b.updated_at) ∧
      (∀ b ∈ g.behaviors, b.updated_at ≤ g.latest_update)) := by
  obtain ⟨hnd, hiff, hgp⟩ := groupRuns_inv (discover_runs root)
  have hperm : (handle_runs root).Perm (groupRuns (discover_runs root)) :=
    sortByKey_perm _ _ _
  have htot : ∀ u v : ℚ, decide (u ≤ v) = true ∨ decide (v ≤ u) = true := by
    intro u v
    rcases le_total u v with h | h
    · exact Or.inl (decide_eq_true h)
    · exact Or.inr (decide_eq_true h)
  have htrans : ∀ u v w : ℚ, decide (u ≤ v) = true → decide (v ≤ w) = true →
      decide (u ≤ w) = true := by
    intro u v w h1 h2
    exact decide_eq_true (le_trans (of_decide_eq_true h1) (of_decide_eq_true h2))
  refine ⟨hperm, ?_, ?_, ?_, ?_⟩
  · have := sortByKey_pairwise RunSummary.latest_update
      (fun x y => decide (x ≤ y)) htot htrans (groupRuns (discover_runs root))
    exact this.imp (fun h => of_decide_eq_true h)
  · exact ((hperm.map RunSummary.id).nodup_iff).mpr hnd
  · intro i
    rw [(hperm.map RunSummary.id).mem_iff]
    exact hiff i
  · intro g hg
    have hgG : g ∈ groupRuns (discover_runs root) := hperm.mem_iff.mp hg
    obtain ⟨hbeh, r0, rs, hfil, hlat⟩ := hgp g hgG
    refine ⟨hbeh, ?_, ?_⟩
    · rcases maxQ_mem r0.updated_at (rs.map BehaviorEventFile.updated_at) with h | h
      · refine ⟨behInfo r0, ?_, by rw [hlat, h]; rfl⟩
        rw [hbeh, hfil]
        exact List.mem_cons_self _ _
      · obtain ⟨rr, hrr, he⟩ := List.mem_map.mp h
        refine ⟨behInfo rr, ?_, by rw [hlat, ← he]; rfl⟩
        rw [hbeh, hfil]
        exact List.mem_cons_of_mem _ (List.mem_map_of_mem behInfo hrr)
    · intro b hb
      rw [hbeh, hfil] at hb
      rcases List.mem_cons.mp hb with rfl | hb
      · rw [hlat]
        exact le_maxQ_self _ _
      · obtain ⟨rr, hrr, he⟩ := List.mem_map.mp hb
        rw [← he, hlat]
        exact le_maxQ_mem _ _ _ (List.mem_map_of_mem BehaviorEventFile.updated_at hrr)

theorem runs_listing_spec_witness :
    (⟨"run1", [⟨"AgentA", "run1/AgentA/events.out.tfevents.3", 3⟩], 3⟩ : RunSummary) ∈
      handle_runs (some fsSample) ∧
    ((⟨"run1", [⟨"AgentA", "run1/AgentA/events.out.tfevents.3", 3⟩], 3⟩ :
        RunSummary).behaviors =
      ((discover_runs (some fsSample)).filter
        (fun r => r.run_id ==
          (⟨"run1", [⟨"AgentA", "run1/AgentA/events.out.tfevents.3", 3⟩], 3⟩ :
            RunSummary).id)).map behInfo ∧
    (∃ b ∈ (⟨"run1", [⟨"AgentA", "run1/AgentA/events.out.tfevents.3", 3⟩], 3⟩ :
        RunSummary).behaviors,
      (⟨"run1", [⟨"AgentA", "run1/AgentA/events.out.tfevents.3", 3⟩], 3⟩ :
        RunSummary).latest_update = b.updated_at) ∧
    (∀ b ∈ (⟨"run1", [⟨"AgentA", "run1/AgentA/events.out.tfevents.3", 3⟩], 3⟩ :
        RunSummary).behaviors,
      b.updated_at ≤
        (⟨"run1", [⟨"AgentA", "run1/AgentA/events.out.tfevents.3", 3⟩], 3⟩ :
          RunSummary).latest_update)) :=
  ⟨by decide,
   (runs_listing_spec (some fsSample)).2.2.2.2
     ⟨"run1", [⟨"AgentA", "run1/AgentA/events.out.tfevents.3", 3⟩], 3⟩ (by decide)⟩

end Dashboard
